import Mathlib

/-!
Verification of the lexical-analysis pipeline (`Lexical-Analysis.py`).

The program loads a `.csv`/`.txt` file into a table with `text_id` and
`content` columns, lowercases and strips every character outside
`[a-z0-9\s]` from each content cell, wraps each user-supplied fragment
into the regular expression `\b\w*frag\w*\b`, and, for every record whose
cleaned content has at least one `findall` match, emits one result row
joining the matches with a comma and a space.

Strings are modelled as `List Char`.  The relevant part of Python's `re`
library (compilation of the fixed pattern family `\b\w*frag\w*\b` for
fragments without regex metacharacters, plus `findall`'s leftmost,
greedy, backtracking scan that advances by one after an empty match) is
embedded as a small executable matcher, `matchRE`/`findall` below.
Python `str.lower` is modelled on the ASCII range; since normalization
afterwards deletes every character outside `[a-z0-9\s]`, this does not
affect the stated properties.
-/

set_option maxRecDepth 8000

namespace LexicalAnalysis

/-! ### Character classes -/

/-- Python's `\w` on the relevant inputs: ASCII alphanumeric or underscore. -/
def isWordChar (c : Char) : Bool := c.isAlphanum || c == '_'

/-- Python's `\s` (ASCII part): space, tab, newline, carriage return,
vertical tab, form feed. -/
def isPySpace (c : Char) : Bool :=
  c == ' ' || c == '\t' || c == '\n' || c == '\r' || c == '\x0B' || c == '\x0C'

/-- The character class `[a-z0-9\s]` kept by `re.sub(r'[^a-z0-9\s]', '', _)`
(source line 43). -/
def keepChar (c : Char) : Bool :=
  ('a' ≤ c && c ≤ 'z') || ('0' ≤ c && c ≤ '9') || isPySpace c

/-- Python `str.lower`, modelled on ASCII. -/
def toLowerPy (c : Char) : Char :=
  if 'A' ≤ c && c ≤ 'Z' then Char.ofNat (c.toNat + 32) else c

/-! ### Content cells and normalization (source lines 42-43) -/

/-- A cell of the `content` column: either a string, or a non-string value
(e.g. a missing value read as NaN) in an object-dtype column. -/
inductive Content where
  | strC (s : List Char)
  | nanC
deriving DecidableEq

/-- Python `str(x)`: NaN prints as `nan`. -/
def pyStr : Content → List Char
  | .strC s => s
  | .nanC => "nan".toList

/-- Source line 42, `df['content'].str.lower()`: lowercases string cells and
maps every non-string cell to NaN. -/
def contentLower : Content → Content
  | .strC s => .strC (s.map toLowerPy)
  | .nanC => .nanC

/-- Source line 43, `re.sub(r'[^a-z0-9\s]', '', str(x))` applied after
line 42's lowercasing: the `cleaned_content` cell for a given `content`
cell. -/
def cleanedContent (c : Content) : List Char :=
  (pyStr (contentLower c)).filter keepChar

/-! ### Words of a text

`words s` lists the maximal runs of word characters of `s`, in order.
It is the reference decomposition used to state what the wrapped pattern
matches. -/

def wordsAux : Nat → List Char → List (List Char)
  | 0, _ => []
  | _, [] => []
  | fuel + 1, c :: t =>
    if isWordChar c then
      (c :: t.takeWhile isWordChar) :: wordsAux fuel (t.dropWhile isWordChar)
    else wordsAux fuel t

def words (l : List Char) : List (List Char) := wordsAux (l.length + 1) l

/-- Interleave an empty entry after every element: the shape of the match
list produced by the empty fragment (claim C10). -/
def withEmpties : List (List Char) → List (List Char)
  | [] => []
  | w :: ws => w :: [] :: withEmpties ws

/-! ### The regex engine

`RE` is the fragment of Python regular expressions actually used by the
program: the patterns built at source line 98 are
`\b\w*frag\w*\b`, i.e. a word boundary, a greedy `\w*`, the literal
fragment, a greedy `\w*`, and a word boundary.  `matchRE` is a
continuation-passing backtracking matcher with Python's semantics:
alternatives of a greedy star are tried longest first, and the first
overall success wins. -/

inductive RE where
  | boundaryRE
  | starWord
  | litRE (l : List Char)
  | seqRE (a b : RE)
deriving DecidableEq

/-- Is position `i` of `s` on a word character? -/
def isWordAt (s : List Char) (i : Nat) : Bool :=
  match s.drop i with
  | [] => false
  | c :: _ => isWordChar c

/-- Is the character just left of position `i` a word character? -/
def leftIsWord (s : List Char) : Nat → Bool
  | 0 => false
  | j + 1 => isWordAt s j

/-- Python's `\b`: exactly one side of the position is a word character. -/
def isBoundary (s : List Char) (i : Nat) : Bool :=
  leftIsWord s i != isWordAt s i

/-- The maximal run of word characters starting at position `i`. -/
def wordRunAt (s : List Char) (i : Nat) : List Char :=
  (s.drop i).takeWhile isWordChar

/-- Does the literal `l` occur at position `i` of `s`? -/
def isPrefixAt (l s : List Char) (i : Nat) : Bool :=
  l.isPrefixOf (s.drop i)

/-- Greedy choice for a star over a single-character class: try consuming
`n` characters first, then backtrack one character at a time. -/
def tryGreedy (k : Nat → Option Nat) (pos : Nat) : Nat → Option Nat
  | 0 => k pos
  | j + 1 =>
    match k (pos + (j + 1)) with
    | some e => some e
    | none => tryGreedy k pos j

/-- The backtracking matcher: `matchRE r s pos k` tries to match `r` at
position `pos` of `s` and passes the end position to the continuation
`k`, backtracking on failure.  `matchRE r s pos some` is Python's
anchored match attempt at `pos`, returning the end of the match. -/
def matchRE : RE → List Char → Nat → (Nat → Option Nat) → Option Nat
  | .boundaryRE, s, pos, k => if isBoundary s pos then k pos else none
  | .starWord, s, pos, k => tryGreedy k pos (wordRunAt s pos).length
  | .litRE l, s, pos, k => if isPrefixAt l s pos then k (pos + l.length) else none
  | .seqRE a b, s, pos, k => matchRE a s pos (fun p => matchRE b s p k)

/-- Scan for the leftmost position in `[pos, pos+n)` with a match. -/
def searchAux (r : RE) (s : List Char) : Nat → Nat → Option (Nat × Nat)
  | _, 0 => none
  | pos, n + 1 =>
    match matchRE r s pos some with
    | some e => some (pos, e)
    | none => searchAux r s (pos + 1) n

/-- Python `re.search` from position `pos`: the leftmost match at a
position in `[pos, s.length]`, as a `(start, end)` pair. -/
def searchFrom (r : RE) (s : List Char) (pos : Nat) : Option (Nat × Nat) :=
  searchAux r s pos (s.length + 1 - pos)

/-- The text of the match `[i, e)`. -/
def extractMatch (s : List Char) (i e : Nat) : List Char :=
  (s.drop i).take (e - i)

/-- Python `re.findall`'s scan: repeatedly search from `pos`, record the
matched text, and continue from the end of the match — or from one past
its start when the match was empty.  The fuel argument bounds the number
of matches; `s.length + 1` scan steps always suffice because the scan
position strictly increases. -/
def findallAux (r : RE) (s : List Char) : Nat → Nat → List (List Char)
  | _, 0 => []
  | pos, fuel + 1 =>
    match searchFrom r s pos with
    | none => []
    | some (i, e) =>
      extractMatch s i e :: findallAux r s (if e ≤ i then i + 1 else e) fuel

/-- Python `compiled_regex.findall(text)` (source line 64). -/
def findall (r : RE) (s : List Char) : List (List Char) :=
  findallAux r s 0 (s.length + 1)

/-- The compiled form of the pattern `\b\w*frag\w*\b` built at source
line 98, for a fragment without regex metacharacters. -/
def wrapFragment (frag : List Char) : RE :=
  .seqRE .boundaryRE
    (.seqRE .starWord (.seqRE (.litRE frag) (.seqRE .starWord .boundaryRE)))

/-- The pattern text `rf"\b\w*{frag}\w*\b"` of source line 98. -/
def patternText (frag : List Char) : List Char :=
  "\\b\\w*".toList ++ frag ++ "\\w*\\b".toList

/-! ### The match/aggregation pipeline (source lines 46-76) -/

/-- One row of the preprocessed table. -/
structure Row where
  text_id : Int
  content : Content
  cleaned_content : List Char
deriving DecidableEq

/-- One row of the result table (source lines 66-71). -/
structure ResultRow where
  text_id : Int
  original_content : Content
  matched_expressions : List Char
  reference_expression : List Char
deriving DecidableEq

/-- The outcome of `re.compile` on a reference expression: a compiled
pattern, or an `re.error` carrying its message. -/
inductive Compiled where
  | ok (r : RE)
  | err (msg : List Char)
deriving DecidableEq

/-- A reference expression: its text and what `re.compile` does with it. -/
structure RefExpr where
  text : List Char
  compiled : Compiled
deriving DecidableEq

/-- The diagnostic printed at source line 73:
`f"Invalid regular expression: {e}"`.  Note it interpolates only the
`re.error` value, not the pattern text. -/
def invalidMsg (m : List Char) : List Char :=
  "Invalid regular expression: ".toList ++ m

/-- The body of the inner loop (source lines 62-71): one record either
yields one result row (when `findall` is non-empty, with the matches
joined by `', '.join`) or nothing. -/
def rowResult (r : RE) (etext : List Char) (row : Row) : Option ResultRow :=
  let ms := findall r row.cleaned_content
  if ms.isEmpty then none
  else some ⟨row.text_id, row.content, List.intercalate ", ".toList ms, etext⟩

/-- Source lines 57-76: for each expression in order, try to compile it;
on success append one row per record with a non-empty match set, in
record order; on `re.error` print a diagnostic and continue.  Returns
the accumulated result rows and the printed diagnostics. -/
def retrieve_related_expressions : List RefExpr → List Row → List ResultRow × List (List Char)
  | [], _ => ([], [])
  | e :: es, rows =>
    let rest := retrieve_related_expressions es rows
    match e.compiled with
    | .ok r => (rows.filterMap (rowResult r e.text) ++ rest.1, rest.2)
    | .err m => (rest.1, invalidMsg m :: rest.2)

/-! ### Loading (source lines 6-29) and exports (source lines 93, 104-105) -/

/-- The loaded table: its column names, its `text_id` column and its
`content` column. -/
structure Frame where
  columns : List (List Char)
  textIds : List Int
  contents : List Content
deriving DecidableEq

/-- An input file: its path, its raw lines (the `.txt` reading), and its
parse as a CSV table (the `.csv` reading). -/
structure InputFile where
  path : List Char
  lines : List (List Char)
  csvColumns : List (List Char)
  csvTextIds : List Int
  csvContents : List Content
deriving DecidableEq

def unsupportedMsg : List Char :=
  "Unsupported file format. Only .csv and .txt files are supported.".toList

def missingContentMsg : List Char :=
  "The input file must contain a 'content' column or be a text file.".toList

/-- Source lines 26-27: after loading, require a `content` column. -/
def checkContentColumn (fr : Frame) : Except (List Char) Frame :=
  if "content".toList ∈ fr.columns then .ok fr else .error missingContentMsg

/-- Source lines 6-29, `load_data`: dispatch on the file extension.  A
`.csv` path yields the file's own CSV table unchanged; a `.txt` path
yields `text_id = range(1, len(lines)+1)` with the raw lines as content;
any other path raises.  Both branches then require a `content` column. -/
def load_data (f : InputFile) : Except (List Char) Frame :=
  if ".csv".toList.isSuffixOf f.path then
    checkContentColumn ⟨f.csvColumns, f.csvTextIds, f.csvContents⟩
  else if ".txt".toList.isSuffixOf f.path then
    checkContentColumn
      ⟨["text_id".toList, "content".toList],
        (List.range f.lines.length).map (fun n => (n : Int) + 1),
        f.lines.map .strC⟩
  else .error unsupportedMsg

/-- Source lines 32-44, `preprocess_data`: attach `cleaned_content` to
every record; ids and raw content are kept unchanged. -/
def preprocess_data (fr : Frame) : List Row :=
  (fr.textIds.zip fr.contents).map (fun tc => ⟨tc.1, tc.2, cleanedContent tc.2⟩)

/-- The columns of `pd.DataFrame(results)` (source line 76): a DataFrame
built from an empty list of dicts has no columns at all; otherwise the
columns are the four dict keys in insertion order. -/
def resultColumns (results : List ResultRow) : List (List Char) :=
  match results with
  | [] => []
  | _ =>
    ["text_id".toList, "original_content".toList,
     "matched_expressions".toList, "reference_expression".toList]

/-- CSV field quoting: a field containing a comma is wrapped in double
quotes (`to_csv` default). -/
def csvField (s : List Char) : List Char :=
  if s.contains ',' then '"' :: (s ++ ['"']) else s

/-- How a content cell prints in the CSV export: NaN prints empty. -/
def renderContent : Content → List Char
  | .strC s => s
  | .nanC => []

def renderInt (n : Int) : List Char := (toString n).toList

def renderResultRow (r : ResultRow) : List (List Char) :=
  [renderInt r.text_id, csvField (renderContent r.original_content),
   csvField r.matched_expressions, csvField r.reference_expression]

def csvLine (cells : List (List Char)) : List Char :=
  List.intercalate [','] cells

/-- The lines of `related_expressions_df.to_csv(index=False)` (source
line 105): a header line with the DataFrame's columns, then one line per
result row. -/
def resultsCsvLines (results : List ResultRow) : List (List Char) :=
  csvLine (resultColumns results) :: results.map (fun r => csvLine (renderResultRow r))

def tsvLine (cells : List (List Char)) : List Char :=
  List.intercalate ['\t'] cells

/-- The lines of the preprocessed-data export (source line 93). -/
def preprocessedLines (rows : List Row) : List (List Char) :=
  tsvLine ["text_id".toList, "cleaned_content".toList] ::
    rows.map (fun r => tsvLine [renderInt r.text_id, r.cleaned_content])

/-! ### The entry point (source lines 78-107) -/

/-- Python `str.split(sep)` for a one-character separator: `n` separators
yield `n+1` parts, so a trailing or doubled comma yields an empty part. -/
def pySplit : List Char → Char → List (List Char)
  | [], _ => [[]]
  | c :: t, sep =>
    if c = sep then [] :: pySplit t sep
    else
      match pySplit t sep with
      | h :: r => (c :: h) :: r
      | [] => [[c]]

/-- Python `str.strip()`: drop leading and trailing whitespace. -/
def pyStrip (s : List Char) : List Char :=
  ((s.dropWhile isPySpace).reverse.dropWhile isPySpace).reverse

/-- Source line 98 for one fragment: the reference expression
`rf"\b\w*{frag.strip()}\w*\b"`.  For a fragment without regex
metacharacters, `re.compile` succeeds and yields `wrapFragment frag`. -/
def mkRefExpr (frag : List Char) : RefExpr :=
  ⟨patternText frag, .ok (wrapFragment frag)⟩

/-- What one run of `main` produces: the two exports (absent when the run
stops before writing them) and the diagnostics printed for malformed
patterns (or the load-error message).  Plain status prints about export
paths are not modelled. -/
structure RunOutput where
  preprocessedExport : Option (List (List Char))
  resultsExport : Option (List (List Char))
  messages : List (List Char)
deriving DecidableEq

/-- The message printed at source line 85. -/
def loadErrorMsg (e : List Char) : List Char :=
  "Error loading file: ".toList ++ e

/-- Source lines 78-107, `main`: on a load error print the message and
return before producing either export; otherwise preprocess, export the
cleaned table, split the operator's input on commas, strip each
fragment, wrap it (source line 98), retrieve the related expressions and
export them. -/
def main (f : InputFile) (userInput : List Char) : RunOutput :=
  match load_data f with
  | .error e => ⟨none, none, [loadErrorMsg e]⟩
  | .ok fr =>
    let df := preprocess_data fr
    let frags := (pySplit userInput ',').map pyStrip
    let exprs := frags.map mkRefExpr
    let res := retrieve_related_expressions exprs df
    ⟨some (preprocessedLines df), some (resultsCsvLines res.1), res.2⟩

/-! ### List helper lemmas -/

theorem takeWhile_drop_comm {p : Char → Bool} :
    ∀ (j : Nat) (l : List Char), j ≤ (l.takeWhile p).length →
      (l.drop j).takeWhile p = (l.takeWhile p).drop j := by
  intro j
  induction j with
  | zero => intro l _; simp
  | succ j ih =>
    intro l hj
    cases l with
    | nil => simp at hj
    | cons a t =>
      by_cases ha : p a
      · simpa [List.takeWhile_cons, ha] using ih t (by simpa [List.takeWhile_cons, ha] using hj)
      · simp [List.takeWhile_cons, ha] at hj

theorem prefix_takeWhile_iff {p : Char → Bool} :
    ∀ (l₁ l : List Char), (∀ c ∈ l₁, p c = true) →
      (l₁ <+: l.takeWhile p ↔ l₁ <+: l) := by
  intro l₁
  induction l₁ with
  | nil => intro l _; simp
  | cons a t ih =>
    intro l hall
    cases l with
    | nil => simp
    | cons b u =>
      by_cases hb : p b
      · simp only [List.takeWhile_cons, hb, if_pos, List.cons_prefix_cons]
        exact and_congr_right fun _ => ih u (fun c hc => hall c (List.mem_cons_of_mem _ hc))
      · simp only [List.takeWhile_cons, hb, if_neg, Bool.false_eq_true, not_false_iff]
        constructor
        · intro h; exact absurd h (by simp)
        · intro h
          rcases (List.cons_prefix_cons.mp h) with ⟨hab, _⟩
          exact absurd (hab ▸ hall a (List.mem_cons_self a t)) (by simp [hb])

theorem infix_iff_exists_prefix_drop {l₁ l₂ : List Char} :
    l₁ <:+: l₂ ↔ ∃ j, j ≤ l₂.length ∧ l₁ <+: l₂.drop j := by
  constructor
  · rintro ⟨pre, post, h⟩
    refine ⟨pre.length, ?_, ?_⟩
    · have := congrArg List.length h
      simp [List.length_append] at this
      omega
    · have hdrop : l₂.drop pre.length = l₁ ++ post := by
        rw [← h, List.append_assoc, List.drop_left]
      exact hdrop ▸ ⟨post, rfl⟩
  · rintro ⟨j, _, t, ht⟩
    exact ⟨l₂.take j, t, by rw [List.append_assoc, ht, List.take_append_drop]⟩

theorem dropWhile_eq_drop_len {p : Char → Bool} (l : List Char) :
    l.dropWhile p = l.drop (l.takeWhile p).length := by
  calc l.dropWhile p
      = (l.takeWhile p ++ l.dropWhile p).drop (l.takeWhile p).length :=
        (List.drop_left _ _).symm
    _ = l.drop (l.takeWhile p).length := by
        rw [List.takeWhile_append_dropWhile]

theorem take_len_takeWhile {p : Char → Bool} (l : List Char) :
    l.take (l.takeWhile p).length = l.takeWhile p :=
  (List.prefix_iff_eq_take.mp (List.takeWhile_prefix p)).symm

/-! ### Word-run and boundary lemmas -/

theorem drop_add_eq (s : List Char) (i j : Nat) : s.drop (i + j) = (s.drop i).drop j := by
  rw [List.drop_drop]

theorem wordRunAt_shift (s : List Char) (i j : Nat)
    (hj : j ≤ (wordRunAt s i).length) :
    wordRunAt s (i + j) = (wordRunAt s i).drop j := by
  unfold wordRunAt
  rw [drop_add_eq]
  exact takeWhile_drop_comm j (s.drop i) hj

theorem isWordAt_iff_run (s : List Char) (i : Nat) :
    isWordAt s i = true ↔ wordRunAt s i ≠ [] := by
  unfold isWordAt wordRunAt
  cases h : s.drop i with
  | nil => simp
  | cons c t =>
    by_cases hc : isWordChar c <;> simp [List.takeWhile_cons, hc]

theorem isWordAt_of_lt_run (s : List Char) (i j : Nat)
    (hj : j < (wordRunAt s i).length) : isWordAt s (i + j) = true := by
  rw [isWordAt_iff_run, wordRunAt_shift s i j (Nat.le_of_lt hj)]
  intro h
  have := congrArg List.length h
  simp [List.length_drop] at this
  omega

theorem isWordAt_run_end (s : List Char) (i : Nat) :
    isWordAt s (i + (wordRunAt s i).length) = false := by
  have h : wordRunAt s (i + (wordRunAt s i).length) = [] := by
    rw [wordRunAt_shift s i _ (Nat.le_refl _)]
    simp
  cases hw : isWordAt s (i + (wordRunAt s i).length) with
  | false => rfl
  | true => exact absurd h ((isWordAt_iff_run s _).mp hw)

theorem isBoundary_run_end (s : List Char) (i : Nat)
    (hb : isBoundary s i = true) :
    isBoundary s (i + (wordRunAt s i).length) = true := by
  cases hl : (wordRunAt s i).length with
  | zero => simpa using hb
  | succ m =>
    have hleft : leftIsWord s (i + (m + 1)) = true := by
      show isWordAt s (i + m) = true
      exact isWordAt_of_lt_run s i m (by omega)
    have hright : isWordAt s (i + (m + 1)) = false := by
      have := isWordAt_run_end s i
      rwa [hl] at this
    simp [isBoundary, hleft, hright]

theorem isBoundary_inside (s : List Char) (i j : Nat)
    (h0 : 0 < j) (hj : j < (wordRunAt s i).length) :
    isBoundary s (i + j) = false := by
  obtain ⟨j', rfl⟩ : ∃ j', j = j' + 1 := ⟨j - 1, by omega⟩
  have hleft : leftIsWord s (i + (j' + 1)) = true := by
    show isWordAt s (i + j') = true
    exact isWordAt_of_lt_run s i j' (by omega)
  have hright : isWordAt s (i + (j' + 1)) = true := isWordAt_of_lt_run s i (j' + 1) hj
  simp [isBoundary, hleft, hright]

/-! ### Greedy-star lemmas -/

theorem tryGreedy_eq_none (k : Nat → Option Nat) (pos : Nat) :
    ∀ n, (∀ j, j ≤ n → k (pos + j) = none) → tryGreedy k pos n = none := by
  intro n
  induction n with
  | zero => intro h; simpa using h 0 (Nat.le_refl 0)
  | succ m ih =>
    intro h
    unfold tryGreedy
    rw [h (m + 1) (Nat.le_refl _)]
    exact ih fun j hj => h j (Nat.le_succ_of_le hj)

theorem tryGreedy_eq_some (k : Nat → Option Nat) (pos : Nat) (E : Nat) :
    ∀ n, (∀ j, j ≤ n → k (pos + j) = none ∨ k (pos + j) = some E) →
      (∃ j, j ≤ n ∧ k (pos + j) = some E) → tryGreedy k pos n = some E := by
  intro n
  induction n with
  | zero =>
    rintro _ ⟨j, hj, hk⟩
    interval_cases j
    simpa using hk
  | succ m ih =>
    rintro hconst ⟨j, hj, hk⟩
    unfold tryGreedy
    cases htop : k (pos + (m + 1)) with
    | some e =>
      rcases hconst (m + 1) (Nat.le_refl _) with h | h
      · rw [htop] at h; cases h
      · rw [htop] at h; exact h
    | none =>
      have hjm : j ≤ m := by
        rcases Nat.lt_or_ge j (m + 1) with h | h
        · omega
        · have : j = m + 1 := by omega
          rw [this, htop] at hk; cases hk
      exact ih (fun j' hj' => hconst j' (Nat.le_succ_of_le hj')) ⟨j, hjm, hk⟩

/-! ### Unfolding lemmas for `words` -/

theorem wordsAux_irrel :
    ∀ f f' (l : List Char), l.length < f → l.length < f' →
      wordsAux f l = wordsAux f' l := by
  intro f
  induction f with
  | zero => intro f' l h _; omega
  | succ g ih =>
    intro f' l h h'
    cases l with
    | nil =>
      cases f' with
      | zero => omega
      | succ g' => rfl
    | cons c t =>
      cases f' with
      | zero => omega
      | succ g' =>
        have ht : t.length < g := by simp at h; omega
        have ht' : t.length < g' := by simp at h'; omega
        have hdw : (t.dropWhile isWordChar).length ≤ t.length := by
          rw [dropWhile_eq_drop_len]
          simp
        by_cases hc : isWordChar c
        · simp only [wordsAux, hc, if_pos]
          rw [ih g' (t.dropWhile isWordChar) (by omega) (by omega)]
        · simp only [wordsAux, hc, if_neg, Bool.false_eq_true, not_false_iff]
          exact ih g' t ht ht'

theorem words_cons_word (c : Char) (t : List Char) (hc : isWordChar c = true) :
    words (c :: t) =
      (c :: t.takeWhile isWordChar) :: words (t.dropWhile isWordChar) := by
  unfold words
  have hdw : (t.dropWhile isWordChar).length ≤ t.length := by
    rw [dropWhile_eq_drop_len]; simp
  simp only [List.length_cons, wordsAux, hc, if_pos]
  rw [wordsAux_irrel (t.length + 1) ((t.dropWhile isWordChar).length + 1)
    (t.dropWhile isWordChar) (by omega) (by omega)]

theorem words_cons_not (c : Char) (t : List Char) (hc : isWordChar c = false) :
    words (c :: t) = words t := by
  unfold words
  simp only [List.length_cons, wordsAux, hc]
  exact wordsAux_irrel (t.length + 1) (t.length + 1) t (by omega) (by omega)

/-! ### Characterizing one match attempt of the wrapped pattern -/

/-- The tail `\w*\b` of the wrapped pattern: from any position it greedily
consumes the rest of the current word run and succeeds exactly at the
run's end when that end is a boundary. -/
theorem matchTail_eq (s : List Char) (q : Nat)
    (hb : isBoundary s (q + (wordRunAt s q).length) = true) :
    matchRE (.seqRE .starWord .boundaryRE) s q some =
      some (q + (wordRunAt s q).length) := by
  obtain ⟨n, hn⟩ : ∃ n, (wordRunAt s q).length = n := ⟨_, rfl⟩
  rw [hn] at hb ⊢
  simp only [matchRE]
  rw [hn]
  cases n with
  | zero =>
    rw [Nat.add_zero] at hb ⊢
    simp only [tryGreedy]
    simp [hb]
  | succ m =>
    simp only [tryGreedy]
    simp [hb]

/-- The tail `frag\w*\b` of the wrapped pattern, attempted at offset `j`
inside the word run starting at `i`: it succeeds exactly when the (all
word-character) fragment occurs at that offset of the run, and the match
then ends at the run's end. -/
theorem litTail_eq (frag s : List Char) (i j : Nat)
    (hw : ∀ c ∈ frag, isWordChar c = true)
    (hb : isBoundary s i = true)
    (hj : j ≤ (wordRunAt s i).length) :
    matchRE (.seqRE (.litRE frag) (.seqRE .starWord .boundaryRE)) s (i + j) some =
      if frag <+: (wordRunAt s i).drop j
      then some (i + (wordRunAt s i).length) else none := by
  have hpre : isPrefixAt frag s (i + j) = true ↔ frag <+: (wordRunAt s i).drop j := by
    unfold isPrefixAt
    rw [List.isPrefixOf_iff_prefix, ← wordRunAt_shift s i j hj]
    exact (prefix_takeWhile_iff frag (s.drop (i + j)) hw).symm
  by_cases hocc : frag <+: (wordRunAt s i).drop j
  · rw [if_pos hocc]
    have hlen : j + frag.length ≤ (wordRunAt s i).length := by
      have h1 := hocc.length_le
      simp [List.length_drop] at h1
      omega
    have hrun : (wordRunAt s (i + (j + frag.length))).length =
        (wordRunAt s i).length - (j + frag.length) := by
      rw [wordRunAt_shift s i (j + frag.length) hlen]
      simp [List.length_drop]
    have hend : i + (j + frag.length) + (wordRunAt s (i + (j + frag.length))).length =
        i + (wordRunAt s i).length := by omega
    have htail := matchTail_eq s (i + (j + frag.length)) (by rw [hend]; exact isBoundary_run_end s i hb)
    rw [hend] at htail
    simp only [matchRE]
    rw [if_pos (hpre.mpr hocc)]
    rw [show i + j + frag.length = i + (j + frag.length) from by omega]
    exact htail
  · rw [if_neg hocc]
    simp only [matchRE]
    rw [if_neg]
    intro hp
    exact hocc (hpre.mp hp)

/-- One-step unfolding of the wrapped pattern's matcher. -/
theorem matchWrap_unfold (frag s : List Char) (i : Nat) :
    matchRE (wrapFragment frag) s i some =
      if isBoundary s i
      then tryGreedy
        (fun p => matchRE (.seqRE (.litRE frag) (.seqRE .starWord .boundaryRE)) s p some)
        i (wordRunAt s i).length
      else none := rfl

/-- The match attempt of `\b\w*frag\w*\b` at position `i`, for a fragment
of word characters: it succeeds exactly when `i` is a boundary and the
fragment occurs inside the word run starting at `i`, and the match is
then the whole run. -/
theorem matchWrap_eq (frag s : List Char) (i : Nat)
    (hw : ∀ c ∈ frag, isWordChar c = true) :
    matchRE (wrapFragment frag) s i some =
      if isBoundary s i = true ∧ frag <:+: wordRunAt s i
      then some (i + (wordRunAt s i).length) else none := by
  rw [matchWrap_unfold]
  by_cases hb : isBoundary s i = true
  · rw [if_pos hb]
    by_cases hocc : frag <:+: wordRunAt s i
    · rw [if_pos ⟨hb, hocc⟩]
      obtain ⟨j, hj, hpj⟩ := infix_iff_exists_prefix_drop.mp hocc
      apply tryGreedy_eq_some
      · intro j' hj'
        simp only [litTail_eq frag s i j' hw hb hj']
        by_cases h : frag <+: (wordRunAt s i).drop j'
        · right; rw [if_pos h]
        · left; rw [if_neg h]
      · refine ⟨j, hj, ?_⟩
        simp only [litTail_eq frag s i j hw hb hj]
        rw [if_pos hpj]
    · rw [if_neg (fun h => hocc h.2)]
      apply tryGreedy_eq_none
      intro j hj
      simp only [litTail_eq frag s i j hw hb hj]
      rw [if_neg]
      intro hpj
      exact hocc (infix_iff_exists_prefix_drop.mpr ⟨j, hj, hpj⟩)
  · rw [if_neg hb, if_neg (fun h => hb h.1)]

/-! ### Search lemmas -/

theorem searchAux_ge (r : RE) (s : List Char) :
    ∀ n pos i e, searchAux r s pos n = some (i, e) → pos ≤ i := by
  intro n
  induction n with
  | zero => intro pos i e h; simp [searchAux] at h
  | succ m ih =>
    intro pos i e h
    unfold searchAux at h
    cases hm : matchRE r s pos some with
    | some e' =>
      rw [hm] at h
      cases h
      exact Nat.le_refl pos
    | none =>
      rw [hm] at h
      exact Nat.le_of_succ_le (ih (pos + 1) i e h)

theorem searchFrom_ge {r : RE} {s : List Char} {pos i e : Nat}
    (h : searchFrom r s pos = some (i, e)) : pos ≤ i :=
  searchAux_ge r s _ pos i e h

theorem searchFrom_stop (r : RE) (s : List Char) (pos : Nat)
    (h : s.length + 1 ≤ pos) : searchFrom r s pos = none := by
  unfold searchFrom
  rw [show s.length + 1 - pos = 0 from by omega]
  rfl

theorem searchFrom_succ (r : RE) (s : List Char) (pos : Nat)
    (hp : pos ≤ s.length) (hm : matchRE r s pos some = none) :
    searchFrom r s pos = searchFrom r s (pos + 1) := by
  unfold searchFrom
  rw [show s.length + 1 - pos = (s.length - pos) + 1 from by omega,
    show s.length + 1 - (pos + 1) = s.length - pos from by omega]
  conv_lhs => unfold searchAux
  rw [hm]

theorem searchFrom_found (r : RE) (s : List Char) (pos e : Nat)
    (hp : pos ≤ s.length) (hm : matchRE r s pos some = some e) :
    searchFrom r s pos = some (pos, e) := by
  unfold searchFrom
  rw [show s.length + 1 - pos = (s.length - pos) + 1 from by omega]
  conv_lhs => unfold searchAux
  rw [hm]

theorem searchFrom_skip (r : RE) (s : List Char) :
    ∀ (d pos : Nat), pos + d ≤ s.length + 1 →
      (∀ q, pos ≤ q → q < pos + d → matchRE r s q some = none) →
      searchFrom r s pos = searchFrom r s (pos + d) := by
  intro d
  induction d with
  | zero => intro pos _ _; rfl
  | succ m ih =>
    intro pos hle hnone
    rw [searchFrom_succ r s pos (by omega)
      (hnone pos (Nat.le_refl pos) (by omega))]
    rw [ih (pos + 1) (by omega) (fun q hq1 hq2 => hnone q (by omega) (by omega))]
    rw [show pos + 1 + m = pos + (m + 1) from by omega]

/-! ### Scan lemmas for `findallAux` -/

theorem findallAux_fuel_irrel (r : RE) (s : List Char) :
    ∀ f f' pos, s.length + 1 - pos ≤ f → s.length + 1 - pos ≤ f' →
      findallAux r s pos f = findallAux r s pos f' := by
  intro f
  induction f with
  | zero =>
    intro f' pos h _
    have hstop : searchFrom r s pos = none := searchFrom_stop r s pos (by omega)
    cases f' with
    | zero => rfl
    | succ g' =>
      simp only [findallAux]
      rw [hstop]
  | succ g ih =>
    intro f' pos h h'
    cases f' with
    | zero =>
      have hstop : searchFrom r s pos = none := searchFrom_stop r s pos (by omega)
      simp only [findallAux]
      rw [hstop]
    | succ g' =>
      simp only [findallAux]
      cases hs : searchFrom r s pos with
      | none => rfl
      | some ie =>
        obtain ⟨i, e⟩ := ie
        have hge : pos ≤ i := searchFrom_ge hs
        by_cases he : e ≤ i
        · simp only [if_pos he]
          rw [ih g' (i + 1) (by omega) (by omega)]
        · simp only [if_neg he]
          rw [ih g' e (by omega) (by omega)]

theorem findallAux_congr (r : RE) (s : List Char) (pos p' f f' : Nat)
    (hle : pos ≤ p')
    (hs : searchFrom r s pos = searchFrom r s p')
    (hf : s.length + 1 - pos ≤ f) (hf' : s.length + 1 - p' ≤ f') :
    findallAux r s pos f = findallAux r s p' f' := by
  cases f with
  | zero =>
    have hstop : searchFrom r s p' = none := by
      rw [← hs]; exact searchFrom_stop r s pos (by omega)
    cases f' with
    | zero => rfl
    | succ g' =>
      simp only [findallAux]
      rw [hstop]
  | succ g =>
    cases f' with
    | zero =>
      have hstop : searchFrom r s pos = none := by
        rw [hs]; exact searchFrom_stop r s p' (by omega)
      simp only [findallAux]
      rw [hstop]
    | succ g' =>
      simp only [findallAux]
      rw [hs]
      cases hsp : searchFrom r s p' with
      | none => rfl
      | some ie =>
        obtain ⟨i, e⟩ := ie
        have hge : p' ≤ i := searchFrom_ge hsp
        by_cases he : e ≤ i
        · simp only [if_pos he]
          rw [findallAux_fuel_irrel r s g g' (i + 1) (by omega) (by omega)]
        · simp only [if_neg he]
          rw [findallAux_fuel_irrel r s g g' e (by omega) (by omega)]

theorem findallAux_step (r : RE) (s : List Char) (pos g i e : Nat)
    (hs : searchFrom r s pos = some (i, e)) :
    findallAux r s pos (g + 1) =
      extractMatch s i e :: findallAux r s (if e ≤ i then i + 1 else e) g := by
  simp only [findallAux, hs]

theorem findallAux_none (r : RE) (s : List Char) (pos g : Nat)
    (hs : searchFrom r s pos = none) :
    findallAux r s pos (g + 1) = [] := by
  simp only [findallAux, hs]

theorem isWordAt_drop (s : List Char) (pos : Nat) (c : Char) (rest : List Char)
    (hd : s.drop pos = c :: rest) : isWordAt s pos = isWordChar c := by
  unfold isWordAt
  rw [hd]

theorem isWordAt_drop_nil (s : List Char) (pos : Nat)
    (hd : s.drop pos = []) : isWordAt s pos = false := by
  unfold isWordAt
  rw [hd]

theorem isBoundary_start (s : List Char) (pos : Nat)
    (hl : pos = 0 ∨ isWordAt s (pos - 1) = false)
    (hr : isWordAt s pos = true) : isBoundary s pos = true := by
  unfold isBoundary
  cases pos with
  | zero => simp [leftIsWord, hr]
  | succ j =>
    have hj : isWordAt s j = false := by
      rcases hl with h | h
      · exact absurd h (Nat.succ_ne_zero j)
      · simpa using h
    simp [leftIsWord, hj, hr]

theorem isBoundary_not (s : List Char) (pos : Nat)
    (hl : pos = 0 ∨ isWordAt s (pos - 1) = false)
    (hr : isWordAt s pos = false) : isBoundary s pos = false := by
  unfold isBoundary
  cases pos with
  | zero => simp [leftIsWord, hr]
  | succ j =>
    have hj : isWordAt s j = false := by
      rcases hl with h | h
      · exact absurd h (Nat.succ_ne_zero j)
      · simpa using h
    simp [leftIsWord, hj, hr]

/-- The main scan invariant for a non-empty all-word-character fragment:
from any scan position that is not strictly inside a word, the remaining
matches are exactly the remaining words containing the fragment. -/
theorem findallAux_wrap_filter (frag s : List Char) (hne : frag ≠ [])
    (hw : ∀ c ∈ frag, isWordChar c = true) :
    ∀ fuel pos, s.length + 1 - pos ≤ fuel →
      (pos = 0 ∨ isWordAt s (pos - 1) = false ∨ isWordAt s pos = false) →
      findallAux (wrapFragment frag) s pos fuel =
        (words (s.drop pos)).filter (fun w => decide (frag <:+: w)) := by
  intro fuel
  induction fuel with
  | zero =>
    intro pos hf _
    have hd : s.drop pos = [] := List.drop_eq_nil_of_le (by omega)
    rw [hd]
    rfl
  | succ g ih =>
    intro pos hf hcond
    cases hd : s.drop pos with
    | nil =>
      have hlen : s.length ≤ pos := List.drop_eq_nil_iff.mp hd
      have hrun : wordRunAt s pos = [] := by
        unfold wordRunAt; rw [hd]; rfl
      have hmatch : matchRE (wrapFragment frag) s pos some = none := by
        rw [matchWrap_eq frag s pos hw, hrun, if_neg]
        intro hcon
        exact hne (List.infix_nil.mp hcon.2)
      have hsf : searchFrom (wrapFragment frag) s pos = none := by
        rcases Nat.lt_or_ge pos (s.length + 1) with hlt | hge
        · rw [searchFrom_succ _ _ _ (by omega) hmatch]
          exact searchFrom_stop _ _ _ (by omega)
        · exact searchFrom_stop _ _ _ hge
      rw [findallAux_none _ _ _ _ hsf]
      rfl
    | cons c rest =>
      have hdrop1 : s.drop (pos + 1) = rest := by
        rw [drop_add_eq, hd]
        rfl
      have hposlen : pos < s.length := by
        have h1 : (s.drop pos).length = s.length - pos := by simp
        rw [hd] at h1
        simp at h1
        omega
      by_cases hc : isWordChar c
      · -- a word starts at `pos`
        have hWpos : isWordAt s pos = true := by rw [isWordAt_drop s pos c rest hd]; exact hc
        have hclean : pos = 0 ∨ isWordAt s (pos - 1) = false := by
          rcases hcond with h | h | h
          · exact Or.inl h
          · exact Or.inr h
          · rw [hWpos] at h; cases h
        have hb : isBoundary s pos = true := isBoundary_start s pos hclean hWpos
        have hRcons : wordRunAt s pos = c :: rest.takeWhile isWordChar := by
          unfold wordRunAt; rw [hd]; simp [List.takeWhile_cons, hc]
        have hRlen : (wordRunAt s pos).length ≤ s.length - pos := by
          have h1 : (wordRunAt s pos).length ≤ (s.drop pos).length :=
            (List.takeWhile_prefix _).length_le
          simpa using h1
        have hRpos : 0 < (wordRunAt s pos).length := by rw [hRcons]; simp
        have hWend : isWordAt s (pos + (wordRunAt s pos).length) = false :=
          isWordAt_run_end s pos
        have hwordsPos : words (c :: rest) =
            wordRunAt s pos :: words (s.drop (pos + (wordRunAt s pos).length)) := by
          rw [words_cons_word c rest hc, ← hRcons]
          congr 1
          rw [drop_add_eq, hd, hRcons]
          rw [dropWhile_eq_drop_len]
          simp
        have hfe : s.length + 1 - (pos + (wordRunAt s pos).length) ≤ g := by omega
        by_cases hocc : frag <:+: wordRunAt s pos
        · have hm : matchRE (wrapFragment frag) s pos some =
              some (pos + (wordRunAt s pos).length) := by
            rw [matchWrap_eq frag s pos hw, if_pos ⟨hb, hocc⟩]
          have hsf := searchFrom_found _ s pos _ (by omega) hm
          rw [findallAux_step _ _ _ _ _ _ hsf, if_neg (by omega : ¬ pos + (wordRunAt s pos).length ≤ pos)]
          have hext : extractMatch s pos (pos + (wordRunAt s pos).length) = wordRunAt s pos := by
            unfold extractMatch wordRunAt
            rw [show pos + ((s.drop pos).takeWhile isWordChar).length - pos
                = ((s.drop pos).takeWhile isWordChar).length from by omega]
            exact take_len_takeWhile _
          rw [hext, ih _ hfe (Or.inr (Or.inr hWend)), hwordsPos, List.filter_cons]
          simp [hocc]
        · have hnone : ∀ q, pos ≤ q → q < pos + (wordRunAt s pos).length →
              matchRE (wrapFragment frag) s q some = none := by
            intro q hq1 hq2
            rcases Nat.eq_or_lt_of_le hq1 with heq | hlt
            · rw [← heq, matchWrap_eq frag s pos hw, if_neg (fun hcon => hocc hcon.2)]
            · obtain ⟨j, rfl⟩ : ∃ j, q = pos + j := ⟨q - pos, by omega⟩
              have hbj : isBoundary s (pos + j) = false :=
                isBoundary_inside s pos j (by omega) (by omega)
              rw [matchWrap_eq frag s (pos + j) hw, if_neg]
              intro hcon
              rw [hbj] at hcon
              cases hcon.1
          have hsf : searchFrom (wrapFragment frag) s pos =
              searchFrom (wrapFragment frag) s (pos + (wordRunAt s pos).length) :=
            searchFrom_skip (wrapFragment frag) s (wordRunAt s pos).length pos
              (by omega) hnone
          rw [findallAux_congr (wrapFragment frag) s pos
            (pos + (wordRunAt s pos).length) (g + 1) g (by omega) hsf (by omega) hfe]
          rw [ih _ hfe (Or.inr (Or.inr hWend)), hwordsPos, List.filter_cons]
          simp [hocc]
      · -- a non-word character sits at `pos`
        have hWpos : isWordAt s pos = false := by
          rw [isWordAt_drop s pos c rest hd]
          simpa using hc
        have hrun : wordRunAt s pos = [] := by
          unfold wordRunAt; rw [hd]; simp [List.takeWhile_cons, hc]
        have hmatch : matchRE (wrapFragment frag) s pos some = none := by
          rw [matchWrap_eq frag s pos hw, hrun, if_neg]
          intro hcon
          exact hne (List.infix_nil.mp hcon.2)
        have hsf := searchFrom_succ (wrapFragment frag) s pos (by omega) hmatch
        rw [findallAux_congr (wrapFragment frag) s pos (pos + 1) (g + 1) g (by omega)
          hsf (by omega) (by omega)]
        rw [ih (pos + 1) (by omega) (Or.inr (Or.inl (by simpa using hWpos)))]
        rw [hdrop1, words_cons_not c rest (by simpa using hc)]

/-- `findall` of the wrapped pattern, for a non-empty fragment of word
characters: exactly the words of the text containing the fragment as a
substring, in text order. -/
theorem findall_wrap_filter (frag s : List Char) (hne : frag ≠ [])
    (hw : ∀ c ∈ frag, isWordChar c = true) :
    findall (wrapFragment frag) s =
      (words s).filter (fun w => decide (frag <:+: w)) := by
  unfold findall
  have h := findallAux_wrap_filter frag s hne hw (s.length + 1) 0 (by omega) (Or.inl rfl)
  simpa using h

/-- The scan invariant for the empty fragment: from any position whose
left neighbour is not a word character, the remaining matches are the
remaining words, each followed by one empty match (recorded at the
boundary at the word's end, after which the scan advances by one). -/
theorem findallAux_wrap_nil_eq (s : List Char) :
    ∀ fuel f pos, f ≤ fuel → s.length + 1 - pos ≤ f →
      (pos = 0 ∨ isWordAt s (pos - 1) = false) →
      findallAux (wrapFragment []) s pos f = withEmpties (words (s.drop pos)) := by
  intro fuel
  induction fuel with
  | zero =>
    intro f pos hffuel hf _
    have hf0 : f = 0 := by omega
    subst hf0
    have hd : s.drop pos = [] := List.drop_eq_nil_of_le (by omega)
    rw [hd]
    rfl
  | succ G ih =>
    intro f pos hffuel hf hcond
    cases f with
    | zero =>
      have hd : s.drop pos = [] := List.drop_eq_nil_of_le (by omega)
      rw [hd]
      rfl
    | succ g =>
      have hwnil : ∀ c ∈ ([] : List Char), isWordChar c = true := by simp
      cases hd : s.drop pos with
      | nil =>
        have hlen : s.length ≤ pos := List.drop_eq_nil_iff.mp hd
        have hWpos : isWordAt s pos = false := isWordAt_drop_nil s pos hd
        have hbf : isBoundary s pos = false := isBoundary_not s pos hcond hWpos
        have hmatch : matchRE (wrapFragment []) s pos some = none := by
          rw [matchWrap_eq [] s pos hwnil, if_neg]
          intro hcon
          rw [hbf] at hcon
          cases hcon.1
        have hsf : searchFrom (wrapFragment []) s pos = none := by
          rcases Nat.lt_or_ge pos (s.length + 1) with hlt | hge
          · rw [searchFrom_succ _ _ _ (by omega) hmatch]
            exact searchFrom_stop _ _ _ (by omega)
          · exact searchFrom_stop _ _ _ hge
        rw [findallAux_none _ _ _ _ hsf]
        rfl
      | cons c rest =>
        have hdrop1 : s.drop (pos + 1) = rest := by
          rw [drop_add_eq, hd]
          rfl
        have hposlen : pos < s.length := by
          have h1 : (s.drop pos).length = s.length - pos := by simp
          rw [hd] at h1
          simp at h1
          omega
        by_cases hc : isWordChar c
        · -- a word starts at `pos`: the whole run matches, then the empty
          -- match at the run's end, then the scan resumes one past it
          have hWpos : isWordAt s pos = true := by rw [isWordAt_drop s pos c rest hd]; exact hc
          have hb : isBoundary s pos = true := isBoundary_start s pos hcond hWpos
          have hRcons : wordRunAt s pos = c :: rest.takeWhile isWordChar := by
            unfold wordRunAt; rw [hd]; simp [List.takeWhile_cons, hc]
          have hRlen : (wordRunAt s pos).length ≤ s.length - pos := by
            have h1 : (wordRunAt s pos).length ≤ (s.drop pos).length :=
              (List.takeWhile_prefix _).length_le
            simpa using h1
          have hRpos : 0 < (wordRunAt s pos).length := by rw [hRcons]; simp
          have hWend : isWordAt s (pos + (wordRunAt s pos).length) = false :=
            isWordAt_run_end s pos
          have hwordsPos : words (c :: rest) =
              wordRunAt s pos :: words (s.drop (pos + (wordRunAt s pos).length)) := by
            rw [words_cons_word c rest hc, ← hRcons]
            congr 1
            rw [drop_add_eq, hd, hRcons, dropWhile_eq_drop_len]
            simp
          have hm : matchRE (wrapFragment []) s pos some =
              some (pos + (wordRunAt s pos).length) := by
            rw [matchWrap_eq [] s pos hwnil, if_pos ⟨hb, List.nil_infix⟩]
          have hsf := searchFrom_found _ s pos _ (by omega) hm
          rw [findallAux_step _ _ _ _ _ _ hsf,
            if_neg (by omega : ¬ pos + (wordRunAt s pos).length ≤ pos)]
          have hext : extractMatch s pos (pos + (wordRunAt s pos).length) = wordRunAt s pos := by
            unfold extractMatch wordRunAt
            rw [show pos + ((s.drop pos).takeWhile isWordChar).length - pos
                = ((s.drop pos).takeWhile isWordChar).length from by omega]
            exact take_len_takeWhile _
          rw [hext, hwordsPos]
          -- the second scan step: the empty match at the run's end
          obtain ⟨g', rfl⟩ : ∃ g', g = g' + 1 := ⟨g - 1, by omega⟩
          have hbE : isBoundary s (pos + (wordRunAt s pos).length) = true :=
            isBoundary_run_end s pos hb
          have hrunE : wordRunAt s (pos + (wordRunAt s pos).length) = [] := by
            rw [wordRunAt_shift s pos _ (Nat.le_refl _)]
            simp
          have hmE : matchRE (wrapFragment []) s (pos + (wordRunAt s pos).length) some =
              some (pos + (wordRunAt s pos).length) := by
            rw [matchWrap_eq [] s _ hwnil, hrunE]
            simp [hbE]
          have hsfE := searchFrom_found _ s (pos + (wordRunAt s pos).length) _ (by omega) hmE
          rw [findallAux_step _ _ _ _ _ _ hsfE, if_pos (Nat.le_refl _)]
          have hextE : extractMatch s (pos + (wordRunAt s pos).length)
              (pos + (wordRunAt s pos).length) = [] := by
            unfold extractMatch
            simp
          rw [hextE]
          have hih := ih g' (pos + (wordRunAt s pos).length + 1) (by omega) (by omega)
            (Or.inr (by simpa using hWend))
          rw [hih]
          -- finally the word list one past the run's end is the word list
          -- at the run's end
          have hwordsE : words (s.drop (pos + (wordRunAt s pos).length)) =
              words (s.drop (pos + (wordRunAt s pos).length + 1)) := by
            cases hde : s.drop (pos + (wordRunAt s pos).length) with
            | nil =>
              have : s.drop (pos + (wordRunAt s pos).length + 1) = [] := by
                rw [drop_add_eq, hde]
                rfl
              rw [this]
            | cons d rest' =>
              have hdnw : isWordChar d = false := by
                have := isWordAt_drop s _ d rest' hde
                rw [hWend] at this
                exact this.symm
              have : s.drop (pos + (wordRunAt s pos).length + 1) = rest' := by
                rw [drop_add_eq, hde]
                rfl
              rw [this, words_cons_not d rest' hdnw]
          rw [← hwordsE]
          rfl
        · -- a non-word character sits at `pos`: no boundary, skip it
          have hWpos : isWordAt s pos = false := by
            rw [isWordAt_drop s pos c rest hd]
            simpa using hc
          have hbf : isBoundary s pos = false := isBoundary_not s pos hcond hWpos
          have hmatch : matchRE (wrapFragment []) s pos some = none := by
            rw [matchWrap_eq [] s pos hwnil, if_neg]
            intro hcon
            rw [hbf] at hcon
            cases hcon.1
          have hsf := searchFrom_succ (wrapFragment []) s pos (by omega) hmatch
          rw [findallAux_congr (wrapFragment []) s pos (pos + 1) (g + 1) g (by omega)
            hsf (by omega) (by omega)]
          rw [ih g (pos + 1) (by omega) (by omega) (Or.inr (by simpa using hWpos))]
          rw [hdrop1, words_cons_not c rest (by simpa using hc)]

/-- `findall` of the wrapped pattern for the empty fragment: every word of
the text, each followed by one empty match. -/
theorem findall_wrap_nil (s : List Char) :
    findall (wrapFragment []) s = withEmpties (words s) := by
  unfold findall
  have h := findallAux_wrap_nil_eq s (s.length + 1) (s.length + 1) 0 (Nat.le_refl _)
    (by omega) (Or.inl rfl)
  simpa using h

/-! ### Structural lemmas about the aggregation loop -/

theorem length_filterMap_rowResult (r : RE) (t : List Char) (rows : List Row) :
    (rows.filterMap (rowResult r t)).length =
      (rows.filter (fun row => !(findall r row.cleaned_content).isEmpty)).length := by
  induction rows with
  | nil => rfl
  | cons a l ihl =>
    rw [List.filterMap_cons, List.filter_cons]
    by_cases h : (findall r a.cleaned_content).isEmpty
    · simp [rowResult, h, ihl]
    · simp [rowResult, h, ihl]

theorem retrieve_append (xs ys : List RefExpr) (rows : List Row) :
    retrieve_related_expressions (xs ++ ys) rows =
      ((retrieve_related_expressions xs rows).1 ++ (retrieve_related_expressions ys rows).1,
        (retrieve_related_expressions xs rows).2 ++ (retrieve_related_expressions ys rows).2) := by
  induction xs with
  | nil => simp [retrieve_related_expressions]
  | cons e es ihe =>
    cases hc : e.compiled with
    | ok r =>
      simp only [List.cons_append, retrieve_related_expressions, hc, ihe]
      simp [List.append_assoc]
      exact ⟨congrArg Prod.fst ihe, congrArg Prod.snd ihe⟩
    | err m =>
      simp only [List.cons_append, retrieve_related_expressions, hc, ihe]
      simp
      exact ⟨congrArg Prod.fst ihe, congrArg Prod.snd ihe⟩

theorem mem_withEmpties (w : List Char) :
    ∀ ws, w ∈ ws → w ∈ withEmpties ws := by
  intro ws
  induction ws with
  | nil => intro h; cases h
  | cons a l ihw =>
    intro h
    rcases List.mem_cons.mp h with rfl | h2
    · exact List.mem_cons_self _ _
    · exact List.mem_cons_of_mem _ (List.mem_cons_of_mem _ (ihw h2))

theorem nil_mem_withEmpties : ∀ ws, ws ≠ [] → ([] : List Char) ∈ withEmpties ws := by
  intro ws h
  cases ws with
  | nil => exact absurd rfl h
  | cons a l => exact List.mem_cons_of_mem _ (List.mem_cons_self _ _)

theorem withEmpties_ne_nil : ∀ ws : List (List Char), ws ≠ [] → withEmpties ws ≠ [] := by
  intro ws h
  cases ws with
  | nil => exact absurd rfl h
  | cons a l => simp [withEmpties]

/-! ### Concrete inputs used in witnesses and counterexamples -/

/-- The pattern text `\b\w*(\w*\b` built from the fragment `(`. -/
def badPatternText : List Char := patternText "(".toList

/-- CPython's `re.error` message for compiling `\b\w*(\w*\b`. -/
def badPatternMsg : List Char :=
  "missing ), unterminated subpattern at position 5".toList

/-- The reference expression for the fragment `(`: compilation fails. -/
def badPattern : RefExpr := ⟨badPatternText, .err badPatternMsg⟩

/-- A CSV input whose `text_id` column holds `7`. -/
def csvExample : InputFile :=
  ⟨"d.csv".toList, [], ["text_id".toList, "content".toList], [7],
   [.strC "hello".toList]⟩

/-- A one-line text input. -/
def txtExample : InputFile := ⟨"d.txt".toList, ["Hi!".toList], [], [], []⟩

/-- An input with an unsupported extension. -/
def badExtExample : InputFile := ⟨"d.pdf".toList, [], [], [], []⟩

/-! ### The claims -/

/-- C1, amended: for every supplied non-empty fragment consisting only of
word characters (so that it compiles to a literal inside the wrapper),
each entry of a MatchResult's matched-substrings sequence — the
`findall` list the code joins for display — is a whole word of the
record's normalized text containing the fragment as a substring.  (As
stated over every compiling fragment the claim fails: see the
counterexample, where the empty fragment, which compiles, also yields
empty-string entries, and a fragment with an embedded space yields a
match spanning two words.) -/
theorem c1_theorem (frag s m : List Char) (hne : frag ≠ [])
    (hw : ∀ c ∈ frag, isWordChar c = true)
    (hm : m ∈ findall (wrapFragment frag) s) :
    m ∈ words s ∧ frag <:+: m := by
  rw [findall_wrap_filter frag s hne hw] at hm
  have h2 := List.mem_filter.mp hm
  exact ⟨h2.1, of_decide_eq_true h2.2⟩

theorem c1_witness :
    ("ing".toList ≠ [] ∧ (∀ c ∈ "ing".toList, isWordChar c = true)
      ∧ "running".toList ∈ findall (wrapFragment "ing".toList) "running and jumped".toList)
    ∧ ("running".toList ∈ words "running and jumped".toList
      ∧ "ing".toList <:+: "running".toList) := by
  have h := c1_theorem "ing".toList "running and jumped".toList "running".toList
    (by decide) (by decide) (by decide)
  exact ⟨⟨by decide, by decide, by decide⟩, h⟩

/-- C1, counterexample to the claim as stated: the empty fragment (from a
trailing comma) compiles, and its match list on the normalized text `ab`
contains the empty string, which is not a word of the text; and the
fragment `a b` compiles, and its match list on `xa b` contains `xa b`,
which spans two words.  The corresponding result row really is produced. -/
theorem c1_counterexample :
    (([] : List Char) ∈ findall (wrapFragment []) "ab".toList
      ∧ ([] : List Char) ∉ words "ab".toList)
    ∧ ("xa b".toList ∈ findall (wrapFragment "a b".toList) "xa b".toList
      ∧ "xa b".toList ∉ words "xa b".toList)
    ∧ rowResult (wrapFragment []) "p".toList ⟨1, .strC "ab".toList, "ab".toList⟩
        = some ⟨1, .strC "ab".toList, "ab, ".toList, "p".toList⟩ := by
  refine ⟨by decide, by decide, by decide⟩

/-- C2: for a valid (compiled) pattern, each record yields one result row
when `findall` on its normalized text is non-empty and none otherwise,
so the number of result rows for the pattern equals the number of
records with at least one match. -/
theorem c2_theorem (r : RE) (t : List Char) (rows : List Row) :
    (retrieve_related_expressions [⟨t, .ok r⟩] rows).1 = rows.filterMap (rowResult r t)
    ∧ (∀ row : Row, rowResult r t row = none ↔ findall r row.cleaned_content = [])
    ∧ (retrieve_related_expressions [⟨t, .ok r⟩] rows).1.length
        = (rows.filter (fun row => !(findall r row.cleaned_content).isEmpty)).length := by
  refine ⟨by simp [retrieve_related_expressions], ?_, ?_⟩
  · intro row
    simp only [rowResult]
    by_cases h : (findall r row.cleaned_content).isEmpty
    · simp [h, List.isEmpty_iff.mp h]
    · simp only [h, Bool.false_eq_true, if_neg, not_false_iff]
      constructor
      · intro hcon; cases hcon
      · intro hcon
        exact absurd (by simp [hcon] : (findall r row.cleaned_content).isEmpty = true)
          (by simp [h])
  · rw [show (retrieve_related_expressions [⟨t, .ok r⟩] rows).1
        = rows.filterMap (rowResult r t) from by simp [retrieve_related_expressions]]
    exact length_filterMap_rowResult r t rows

/-- C3, amended: a pattern that fails to compile is reported with the
compile-failure reason and skipped — it contributes zero rows, the
results of every other pattern are exactly those of the list without it,
and the run continues.  However, the printed diagnostic
(`Invalid regular expression: {e}`) interpolates only the `re.error`
reason, not the pattern text: the diagnostics are unchanged when the
failing pattern's text changes. -/
theorem c3_theorem (xs ys : List RefExpr) (t t' m : List Char) (rows : List Row) :
    (retrieve_related_expressions (xs ++ ⟨t, .err m⟩ :: ys) rows).1
        = (retrieve_related_expressions (xs ++ ys) rows).1
    ∧ (retrieve_related_expressions (xs ++ ⟨t, .err m⟩ :: ys) rows).2
        = (retrieve_related_expressions xs rows).2
            ++ invalidMsg m :: (retrieve_related_expressions ys rows).2
    ∧ (retrieve_related_expressions (⟨t, .err m⟩ :: ys) rows).2
        = (retrieve_related_expressions (⟨t', .err m⟩ :: ys) rows).2 := by
  refine ⟨?_, ?_, ?_⟩
  · rw [retrieve_append xs (⟨t, .err m⟩ :: ys) rows, retrieve_append xs ys rows]
    simp [retrieve_related_expressions]
  · rw [retrieve_append xs (⟨t, .err m⟩ :: ys) rows]
    simp [retrieve_related_expressions]
  · simp [retrieve_related_expressions]

/-- C3, counterexample to the claim as stated: for the wrapped fragment
`(` the code prints only `Invalid regular expression: ` followed by the
`re.error` reason; the printed diagnostic does not contain the pattern
text. -/
theorem c3_counterexample :
    (retrieve_related_expressions [badPattern] []).2 = [invalidMsg badPatternMsg]
    ∧ ¬ badPatternText <:+: invalidMsg badPatternMsg := by
  exact ⟨rfl, by decide⟩

/-- C4, amended: an empty overall result set is not an error, but the
DataFrame built from the empty result list has no columns at all, so the
export has zero rows and an empty header line — not the four defined
column headers. -/
theorem c4_theorem (rows : List Row) :
    (retrieve_related_expressions [] rows).1 = []
    ∧ resultColumns (retrieve_related_expressions [] rows).1 = []
    ∧ resultsCsvLines (retrieve_related_expressions [] rows).1 = [[]] := by
  exact ⟨rfl, rfl, rfl⟩

/-- C4, counterexample to the claim as stated: for an empty pattern list
the result table's columns are not the four defined columns — they are
empty. -/
theorem c4_counterexample :
    resultColumns (retrieve_related_expressions [] ([] : List Row)).1
      ≠ ["text_id".toList, "original_content".toList,
         "matched_expressions".toList, "reference_expression".toList] := by
  decide

/-- C5: normalization is lowercasing followed by deleting every character
outside `[a-z0-9\s]`; hence every character of the normalized text is a
lowercase letter, a digit or whitespace, and none is uppercase. -/
theorem c5_theorem (c : Content) (s : List Char) (ch : Char)
    (h : ch ∈ cleanedContent c) :
    cleanedContent (Content.strC s) = (s.map toLowerPy).filter keepChar
    ∧ (('a' ≤ ch ∧ ch ≤ 'z') ∨ ('0' ≤ ch ∧ ch ≤ '9') ∨ isPySpace ch = true)
    ∧ ¬ ('A' ≤ ch ∧ ch ≤ 'Z') := by
  have hk : keepChar ch = true := List.of_mem_filter h
  have hclass : ('a' ≤ ch ∧ ch ≤ 'z') ∨ ('0' ≤ ch ∧ ch ≤ '9') ∨ isPySpace ch = true := by
    unfold keepChar at hk
    simp only [Bool.or_eq_true, Bool.and_eq_true, decide_eq_true_eq] at hk
    tauto
  refine ⟨rfl, hclass, ?_⟩
  rintro ⟨hA, hZ⟩
  rcases hclass with ⟨h1, _⟩ | ⟨_, h2⟩ | h1
  · exact absurd (le_trans h1 hZ) (by decide)
  · exact absurd (le_trans hA h2) (by decide)
  · simp only [isPySpace, Bool.or_eq_true, beq_iff_eq] at h1
    rcases h1 with ((((rfl | rfl) | rfl) | rfl) | rfl) | rfl <;> exact absurd hA (by decide)

theorem c5_witness :
    'r' ∈ cleanedContent (Content.strC "Running!".toList)
    ∧ ((('a' ≤ 'r' ∧ 'r' ≤ 'z') ∨ ('0' ≤ 'r' ∧ 'r' ≤ '9') ∨ isPySpace 'r' = true)
      ∧ ¬ ('A' ≤ 'r' ∧ 'r' ≤ 'Z')) := by
  have h := c5_theorem (Content.strC "Running!".toList) [] 'r' (by decide)
  exact ⟨by decide, h.2.1, h.2.2⟩

/-- C6: a non-string (missing) content cell is mapped to NaN by the
string accessor and then coerced by `str(x)` to its printed form `nan`
before character filtering, so it normalizes to the literal text `nan`,
never to the empty string. -/
theorem c6_theorem :
    cleanedContent Content.nanC = "nan".toList
    ∧ cleanedContent Content.nanC ≠ [] := by
  exact ⟨by decide, by decide⟩

/-- C7: output rows are grouped by pattern in the order patterns were
supplied (the rows of the first pattern precede the rest); within one
pattern the rows follow record input order (one `filterMap` pass over
the records); a record matching two patterns yields one row in each
pattern's group; and a row's matched display string joins the `findall`
matches — which are in text order — with a comma and a space. -/
theorem c7_theorem (e : RefExpr) (es : List RefExpr) (rows : List Row)
    (r : RE) (t : List Char) (row : Row) :
    (retrieve_related_expressions (e :: es) rows).1
        = (retrieve_related_expressions [e] rows).1
            ++ (retrieve_related_expressions es rows).1
    ∧ (retrieve_related_expressions [⟨t, .ok r⟩] rows).1 = rows.filterMap (rowResult r t)
    ∧ rowResult r t row
        = (if (findall r row.cleaned_content).isEmpty then none
          else some ⟨row.text_id, row.content,
            List.intercalate ", ".toList (findall r row.cleaned_content), t⟩) := by
  refine ⟨?_, by simp [retrieve_related_expressions], rfl⟩
  have h := congrArg Prod.fst (retrieve_append [e] es rows)
  simpa [retrieve_related_expressions] using h

/-- C8, amended: the loader accepts only `.csv` and `.txt` paths and
fails with a descriptive error otherwise, or when the `content` column
is absent; a load failure makes `main` return before producing either
export.  For `.txt` inputs the ids are 1-based and sequential; for
`.csv` inputs, however, the `text_id` column is taken from the file
unchanged (see the counterexample), so ids are not in general 1-based
sequential. -/
theorem c8_theorem (f : InputFile) (inp e : List Char) :
    (".csv".toList.isSuffixOf f.path = false → ".txt".toList.isSuffixOf f.path = false →
      load_data f = .error unsupportedMsg)
    ∧ (".csv".toList.isSuffixOf f.path = true → "content".toList ∉ f.csvColumns →
      load_data f = .error missingContentMsg)
    ∧ (".csv".toList.isSuffixOf f.path = false → ".txt".toList.isSuffixOf f.path = true →
      load_data f = .ok ⟨["text_id".toList, "content".toList],
        (List.range f.lines.length).map (fun n => (n : Int) + 1), f.lines.map .strC⟩)
    ∧ (load_data f = .error e → main f inp = ⟨none, none, [loadErrorMsg e]⟩) := by
  refine ⟨?_, ?_, ?_, ?_⟩
  · intro h1 h2
    simp only [load_data]
    rw [h1, h2]
    simp
  · intro h1 h2
    simp only [load_data, checkContentColumn]
    rw [h1]
    simp
    simpa using h2
  · intro h1 h2
    simp only [load_data, checkContentColumn]
    rw [h1, h2]
    simp
  · intro h
    simp [main, h]

theorem c8_witness :
    load_data txtExample = .ok ⟨["text_id".toList, "content".toList], [(1 : Int)],
      [.strC "Hi!".toList]⟩
    ∧ main badExtExample [] = ⟨none, none, [loadErrorMsg unsupportedMsg]⟩ := by
  have h1 := (c8_theorem txtExample [] []).2.2.1 (by decide) (by decide)
  have h2 := (c8_theorem badExtExample [] unsupportedMsg).1 (by decide) (by decide)
  have h3 := (c8_theorem badExtExample [] unsupportedMsg).2.2.2 h2
  exact ⟨by rw [h1]; rfl, h3⟩

/-- C8, counterexample to the claim as stated: a loadable CSV whose
`text_id` column holds `7` loads successfully, and the produced id field
is `7`, not the 1-based sequential `1`. -/
theorem c8_counterexample :
    load_data csvExample = .ok ⟨["text_id".toList, "content".toList], [(7 : Int)],
      [.strC "hello".toList]⟩
    ∧ [(7 : Int)] ≠ [(1 : Int)] := by
  exact ⟨rfl, by decide⟩

/-- C9: the pipeline is deterministic — it is a pure function of the
input file and the operator's pattern input (iteration orders are fixed
and there is no other state), so two runs on equal inputs produce equal
outputs, in particular byte-identical exports. -/
theorem c9_theorem (f f' : InputFile) (inp inp' : List Char)
    (hf : f = f') (hi : inp = inp') : main f inp = main f' inp' := by
  rw [hf, hi]

theorem c9_witness :
    txtExample = txtExample ∧ main txtExample "ing".toList = main txtExample "ing".toList := by
  exact ⟨rfl, c9_theorem txtExample txtExample "ing".toList "ing".toList rfl rfl⟩

/-- C10: the empty fragment (e.g. from a trailing or doubled comma, as
`pySplit`/`pyStrip` show) compiles to the wrapped pattern `\b\w*\w*\b`,
and on every record whose normalized text has at least one word it
yields a result row whose match list is every word of the text with one
empty-string entry after each word, joined for display with comma-space
(hence empty list elements in the display string). -/
theorem c10_theorem (t : List Char) (row : Row)
    (hw : words row.cleaned_content ≠ []) :
    findall (wrapFragment []) row.cleaned_content = withEmpties (words row.cleaned_content)
    ∧ (∀ w ∈ words row.cleaned_content, w ∈ findall (wrapFragment []) row.cleaned_content)
    ∧ ([] : List Char) ∈ findall (wrapFragment []) row.cleaned_content
    ∧ rowResult (wrapFragment []) t row
        = some ⟨row.text_id, row.content,
            List.intercalate ", ".toList (withEmpties (words row.cleaned_content)), t⟩
    ∧ (mkRefExpr []).compiled = .ok (wrapFragment [])
    ∧ (pySplit "ing,".toList ',').map pyStrip = ["ing".toList, []] := by
  have hf := findall_wrap_nil row.cleaned_content
  refine ⟨hf, ?_, ?_, ?_, rfl, by decide⟩
  · intro w hw'
    rw [hf]
    exact mem_withEmpties w _ hw'
  · rw [hf]
    exact nil_mem_withEmpties _ hw
  · simp only [rowResult, hf]
    rw [if_neg]
    simp [List.isEmpty_iff, withEmpties_ne_nil _ hw]

theorem c10_witness :
    words ("ab cd".toList) ≠ []
    ∧ ([] : List Char) ∈ findall (wrapFragment []) "ab cd".toList := by
  have h := c10_theorem "p".toList ⟨1, .strC "ab cd".toList, "ab cd".toList⟩ (by decide)
  exact ⟨by decide, h.2.2.1⟩

end LexicalAnalysis
